import Mathlib

/-!
Verification of the ranked retrieval engine (backend/src/rag/retriever.py).

The Python module is embedded shallowly: result dictionaries become the
`Cand` structure with optional score fields, the two external collaborators
(embedding generator, vector index) are parameters, Python's stable
`list.sort` is modelled by `List.insertionSort` (which is stable and agrees
with any stable sort on the same key), and the insertion-ordered Python
`dict` used during hybrid fusion becomes an association list with an
upsert operation.  Floats are modelled by rationals.
-/

namespace Retriever

/-- Chunk metadata; only `book_id` is inspected by the engine
(`result.get('metadata', {}).get('book_id')`). -/
structure Metadata where
  book_id : Option String
deriving DecidableEq, Repr

/-- One hit returned by the vector index collaborator:
`{id, content, metadata, distance}`. -/
structure Hit where
  id : String
  content : String
  metadata : Metadata
  distance : ℚ
deriving DecidableEq, Repr

/-- A result dictionary.  Each optional field models presence or absence of
the corresponding key (`similarity_score`, `bm25_score`, `semantic_score`,
`keyword_score`, `combined_score`, `reranked_score`, `rank`). -/
structure Cand where
  id : String
  content : String
  metadata : Metadata
  similarity_score : Option ℚ := none
  bm25_score : Option ℚ := none
  semantic_score : Option ℚ := none
  keyword_score : Option ℚ := none
  combined_score : Option ℚ := none
  reranked_score : Option ℚ := none
  rank : Option Nat := none
deriving DecidableEq, Repr

/-- The vector index collaborator: `vector_store.search(query, n_results)`. -/
def VectorStore : Type := String → Nat → List Hit

/-- The embedding generator collaborator:
`embedding_generator.generate_embedding(text)`; an empty list models a
falsy (`None`/empty) embedding. -/
def EmbedGen : Type := String → List ℚ

/-- Whitespace splitting with Python `str.split()` semantics: maximal
non-whitespace runs, no empty tokens.  `acc` holds the current word
reversed. -/
def splitWsAux : List Char → List Char → List String
  | [], acc => if acc.isEmpty then [] else [String.mk acc.reverse]
  | c :: cs, acc =>
    if c.isWhitespace then
      (if acc.isEmpty then splitWsAux cs [] else String.mk acc.reverse :: splitWsAux cs [])
    else splitWsAux cs (c :: acc)

/-- Python `s.lower().split()`: lower-case each character, then split on
whitespace runs. -/
def pyWords (s : String) : List String :=
  splitWsAux (s.data.map Char.toLower) []

/-- Python `set(s.lower().split())`. -/
def wordFinset (s : String) : Finset String :=
  (pyWords s).toFinset

/-- The key order of `results.sort(key=lambda x: x['distance'])`. -/
def distLe (a b : Hit) : Prop := a.distance ≤ b.distance

instance : DecidableRel distLe := fun a b => inferInstanceAs (Decidable (_ ≤ _))

instance : IsTotal Hit distLe := ⟨fun a b => le_total a.distance b.distance⟩

instance : IsTrans Hit distLe := ⟨fun _ _ _ h h' => le_trans h h'⟩

/-- One formatted semantic result: `similarity_score = 1 - distance` and
`rank = len(formatted_results) + 1` (the 1-based position, `n` positions
precede it). -/
def semCand (r : Hit) (n : Nat) : Cand :=
  { id := r.id, content := r.content, metadata := r.metadata,
    similarity_score := some (1 - r.distance), rank := some (n + 1) }

/-- The formatting loop of `SemanticRetriever.retrieve`. -/
def formatSemantic : List Hit → Nat → List Cand
  | [], _ => []
  | r :: rest, n => semCand r n :: formatSemantic rest (n + 1)

/-- `SemanticRetriever.retrieve`: empty embedding fails soft, then the index
results are sorted by ascending distance and formatted. -/
def semanticRetrieve (eg : EmbedGen) (vs : VectorStore) (q : String) (top_k : Nat) :
    List Cand :=
  if (eg q).isEmpty then []
  else formatSemantic ((vs q top_k).insertionSort distLe) 0

/-- One formatted keyword result: the term-overlap score
`overlap / len(query_words) if len(query_words) > 0 else 0` and the
positional rank. -/
def keyCand (qw : Finset String) (r : Hit) (n : Nat) : Cand :=
  { id := r.id, content := r.content, metadata := r.metadata,
    bm25_score := some (if 0 < qw.card
      then ((qw ∩ wordFinset r.content).card : ℚ) / (qw.card : ℚ) else 0),
    rank := some (n + 1) }

/-- The formatting loop of `BM25Retriever.retrieve`.  No sorting happens in
the source. -/
def formatKeyword (qw : Finset String) : List Hit → Nat → List Cand
  | [], _ => []
  | r :: rest, n => keyCand qw r n :: formatKeyword qw rest (n + 1)

/-- `BM25Retriever.retrieve`. -/
def keywordRetrieve (vs : VectorStore) (q : String) (top_k : Nat) : List Cand :=
  formatKeyword (wordFinset q) (vs q top_k) 0

/-- One value of the Python dict `result_scores`:
`{'document': ..., 'semantic_score': ..., 'keyword_score': ...}`. -/
structure Entry where
  document : Cand
  semantic_score : ℚ
  keyword_score : ℚ
deriving DecidableEq, Repr

/-- Insertion-ordered upsert on the association list modelling the Python
dict `result_scores`: update every binding of key `i` with `f`, or append a
fresh binding `(i, e₀)` when the key is absent. -/
def upsertE (m : List (String × Entry)) (i : String) (e₀ : Entry) (f : Entry → Entry) :
    List (String × Entry) :=
  if m.any (fun p => p.1 == i) then
    m.map (fun p => if p.1 == i then (p.1, f p.2) else p)
  else m ++ [(i, e₀)]

/-- The first loop of `HybridRetriever.retrieve`: insert the semantic result
if its id is new (with `semantic_score` then set to
`result.get('similarity_score', 0)` and `keyword_score` 0), else overwrite
`semantic_score` only. -/
def addSemantic (m : List (String × Entry)) (r : Cand) : List (String × Entry) :=
  upsertE m r.id ⟨r, r.similarity_score.getD 0, 0⟩
    (fun e => { e with semantic_score := r.similarity_score.getD 0 })

/-- The second loop of `HybridRetriever.retrieve`, symmetric with
`result.get('bm25_score', 0)`. -/
def addKeyword (m : List (String × Entry)) (r : Cand) : List (String × Entry) :=
  upsertE m r.id ⟨r, 0, r.bm25_score.getD 0⟩
    (fun e => { e with keyword_score := r.bm25_score.getD 0 })

/-- The combination step of `HybridRetriever.retrieve`: a copy of the base
document with `combined_score`, `semantic_score` and `keyword_score` set. -/
def fuseCand (sw kw : ℚ) (p : String × Entry) : Cand :=
  { p.2.document with
    combined_score := some (sw * p.2.semantic_score + kw * p.2.keyword_score),
    semantic_score := some p.2.semantic_score,
    keyword_score := some p.2.keyword_score }

/-- The fused candidate list of `HybridRetriever.retrieve` before sorting:
both sub-retrievals are called with `top_k * 2`, scores are accumulated in
the dict, and each entry becomes a fused copy of its base document. -/
def hybridCombined (sw kw : ℚ) (eg : EmbedGen) (vs : VectorStore) (q : String)
    (top_k : Nat) : List Cand :=
  let semantic_results := semanticRetrieve eg vs q (top_k * 2)
  let keyword_results := keywordRetrieve vs q (top_k * 2)
  let m := keyword_results.foldl addKeyword (semantic_results.foldl addSemantic [])
  m.map (fuseCand sw kw)

/-- The key order of the descending sort on `combined_score` (every fused
candidate carries the key, read as Python reads `x['combined_score']`). -/
def fusedGe (a b : Cand) : Prop := b.combined_score.getD 0 ≤ a.combined_score.getD 0

instance : DecidableRel fusedGe := fun a b => inferInstanceAs (Decidable (_ ≤ _))

instance : IsTotal Cand fusedGe := ⟨fun a b => le_total (b.combined_score.getD 0) (a.combined_score.getD 0)⟩

instance : IsTrans Cand fusedGe := ⟨fun _ _ _ h h' => le_trans h' h⟩

/-- `combined_results.sort(key=lambda x: x['combined_score'], reverse=True)`. -/
def hybridSorted (sw kw : ℚ) (eg : EmbedGen) (vs : VectorStore) (q : String)
    (top_k : Nat) : List Cand :=
  (hybridCombined sw kw eg vs q top_k).insertionSort fusedGe

/-- `HybridRetriever.retrieve`: sort by fused score and return the first
`top_k` results. -/
def hybridRetrieve (sw kw : ℚ) (eg : EmbedGen) (vs : VectorStore) (q : String)
    (top_k : Nat) : List Cand :=
  (hybridSorted sw kw eg vs q top_k).take top_k

/-- The per-candidate body of `RankedRetrievalService._rerank_results`:
term overlap against the full content, the `[20, 500]` length heuristic,
the constant position score, and the weighted combination
`0.5 * result.get('combined_score', result.get('semantic_score', 0)) +
0.3 * term_overlap + 0.1 * length_score + 0.1 * position_score`. -/
def rerankOne (q : String) (r : Cand) : Cand :=
  let query_words := wordFinset q
  let content_words := pyWords r.content
  let term_overlap : ℚ :=
    if 0 < query_words.card
    then ((query_words ∩ content_words.toFinset).card : ℚ) / (query_words.card : ℚ)
    else 0
  let length_score : ℚ := if content_words.length < 20 ∨ 500 < content_words.length
    then 1/2 else 1
  let position_score : ℚ := 1
  let combined : ℚ :=
    (1/2) * (r.combined_score.getD (r.semantic_score.getD 0))
      + (3/10) * term_overlap + (1/10) * length_score + (1/10) * position_score
  { r with reranked_score := some combined }

/-- The key order of the descending sort on `reranked_score`. -/
def rerankGe (a b : Cand) : Prop := b.reranked_score.getD 0 ≤ a.reranked_score.getD 0

instance : DecidableRel rerankGe := fun a b => inferInstanceAs (Decidable (_ ≤ _))

instance : IsTotal Cand rerankGe := ⟨fun a b => le_total (b.reranked_score.getD 0) (a.reranked_score.getD 0)⟩

instance : IsTrans Cand rerankGe := ⟨fun _ _ _ h h' => le_trans h' h⟩

/-- `RankedRetrievalService._rerank_results`: score every candidate, then
sort descending by `reranked_score`. -/
def rerankResults (q : String) (results : List Cand) : List Cand :=
  (results.map (rerankOne q)).insertionSort rerankGe

/-- The `if book_id:` post-filter shared by all service operations; Python
truthiness makes `None` and the empty string skip the filter. -/
def filterByBook (book_id : Option String) (results : List Cand) : List Cand :=
  match book_id with
  | none => results
  | some b => if b = "" then results
      else results.filter (fun r => r.metadata.book_id == some b)

/-- `RankedRetrievalService.retrieve_by_semantic_similarity`. -/
def retrieve_by_semantic_similarity (eg : EmbedGen) (vs : VectorStore) (q : String)
    (book_id : Option String) (top_k : Nat) : List Cand :=
  filterByBook book_id (semanticRetrieve eg vs q top_k)

/-- `RankedRetrievalService.retrieve_by_keyword_matching`. -/
def retrieve_by_keyword_matching (vs : VectorStore) (q : String)
    (book_id : Option String) (top_k : Nat) : List Cand :=
  filterByBook book_id (keywordRetrieve vs q top_k)

/-- `RankedRetrievalService.retrieve_hybrid`; the service's
`HybridRetriever()` uses the default weights `0.7` and `0.3`. -/
def retrieve_hybrid (eg : EmbedGen) (vs : VectorStore) (q : String)
    (book_id : Option String) (top_k : Nat) : List Cand :=
  filterByBook book_id (hybridRetrieve (7/10) (3/10) eg vs q top_k)

/-- `RankedRetrievalService.retrieve_with_reranking`: `top_k * 2` hybrid
candidates, book filter, rerank, truncate. -/
def retrieve_with_reranking (eg : EmbedGen) (vs : VectorStore) (q : String)
    (book_id : Option String) (top_k : Nat) : List Cand :=
  (rerankResults q
    (filterByBook book_id (hybridRetrieve (7/10) (3/10) eg vs q (top_k * 2)))).take top_k

/-- The semantic score the hybrid fusion reads for identity `i`: the
`similarity_score` of the last semantic result with that id (the dict
overwrite semantics), or the default `d` when the id never occurs. -/
def semScoreOf (l : List Cand) (d : ℚ) (i : String) : ℚ :=
  l.foldl (fun acc c => if c.id = i then c.similarity_score.getD 0 else acc) d

/-- The keyword score the hybrid fusion reads for identity `i`. -/
def keyScoreOf (l : List Cand) (d : ℚ) (i : String) : ℚ :=
  l.foldl (fun acc c => if c.id = i then c.bm25_score.getD 0 else acc) d

/-- All numeric scores present on a candidate. -/
def scoresOf (c : Cand) : List ℚ :=
  [c.similarity_score, c.bm25_score, c.semantic_score, c.keyword_score,
    c.combined_score, c.reranked_score].filterMap id

/-- Every score present on the candidate lies in `[0, 1]`. -/
def scoresBounded (c : Cand) : Prop :=
  ∀ s ∈ scoresOf c, 0 ≤ s ∧ s ≤ 1

/-! ### Generic facts about the stable sort -/

theorem orderedInsert_of_forall_le {α : Type} {r : α → α → Prop} [DecidableRel r] {a : α} :
    ∀ {l : List α}, (∀ b ∈ l, r a b) → l.orderedInsert r a = a :: l
  | [], _ => rfl
  | b :: l, h => by
    rw [List.orderedInsert, if_pos (h b (List.mem_cons_self b l))]

/-- Filtering a sorted list after an ordered insertion is inserting into the
filtered list (or dropping the new element). -/
theorem filter_orderedInsert {α : Type} {r : α → α → Prop} [DecidableRel r] [IsTrans α r]
    (p : α → Bool) (a : α) :
    ∀ l : List α, l.Sorted r →
      (l.orderedInsert r a).filter p =
        if p a then (l.filter p).orderedInsert r a else l.filter p := by
  intro l
  induction l with
  | nil =>
    intro _
    cases hpa : p a <;> simp [List.orderedInsert, hpa]
  | cons b l ih =>
    intro hsort
    have hbl : ∀ c ∈ l, r b c := List.rel_of_sorted_cons hsort
    have hl : l.Sorted r := hsort.of_cons
    by_cases hab : r a b
    · rw [List.orderedInsert, if_pos hab]
      cases hpa : p a
      · simp [List.filter_cons, hpa]
      · rw [List.filter_cons_of_pos hpa, if_pos rfl,
          orderedInsert_of_forall_le]
        intro c hc
        have hc' : c ∈ b :: l := List.mem_of_mem_filter hc
        rcases List.mem_cons.mp hc' with h | h
        · exact h ▸ hab
        · exact Trans.trans hab (hbl c h)
    · rw [List.orderedInsert, if_neg hab]
      cases hpb : p b <;> cases hpa : p a <;>
        simp [List.filter_cons, hpb, hpa, ih hl, List.orderedInsert, hab]

/-- The stable sort commutes with filtering. -/
theorem filter_insertionSort {α : Type} {r : α → α → Prop} [DecidableRel r]
    [IsTotal α r] [IsTrans α r] (p : α → Bool) :
    ∀ l : List α, (l.insertionSort r).filter p = (l.filter p).insertionSort r := by
  intro l
  induction l with
  | nil => rfl
  | cons a l ih =>
    rw [List.insertionSort,
      filter_orderedInsert p a _ (List.sorted_insertionSort r l), ih]
    cases hpa : p a <;> simp [List.filter_cons, hpa, List.insertionSort]

/-! ### The formatting loops -/

theorem formatSemantic_map_id : ∀ (l : List Hit) (n : Nat),
    (formatSemantic l n).map (fun c => c.id) = l.map (fun h => h.id)
  | [], _ => rfl
  | r :: rest, n => by
    simp [formatSemantic, semCand, formatSemantic_map_id rest (n + 1)]

theorem formatSemantic_map_rank : ∀ (l : List Hit) (n : Nat),
    (formatSemantic l n).map (fun c => c.rank) = (List.range' (n + 1) l.length).map some
  | [], _ => rfl
  | r :: rest, n => by
    simp [formatSemantic, semCand, List.range', formatSemantic_map_rank rest (n + 1)]

theorem mem_formatSemantic : ∀ {l : List Hit} {n : Nat} {c : Cand},
    c ∈ formatSemantic l n → ∃ r ∈ l, ∃ m, c = semCand r m := by
  intro l
  induction l with
  | nil => intro n c hc; simp [formatSemantic] at hc
  | cons r rest ih =>
    intro n c hc
    rcases List.mem_cons.mp hc with h | h
    · exact ⟨r, List.mem_cons_self r rest, n, h⟩
    · obtain ⟨r', hr', m, hm⟩ := ih h
      exact ⟨r', List.mem_cons_of_mem r hr', m, hm⟩

theorem formatSemantic_pairwise {r : Hit → Hit → Prop} {r' : Cand → Cand → Prop}
    (H : ∀ a b na nb, r a b → r' (semCand a na) (semCand b nb)) :
    ∀ {l : List Hit} {n : Nat}, l.Pairwise r → (formatSemantic l n).Pairwise r' := by
  intro l
  induction l with
  | nil => intro n _; exact List.Pairwise.nil
  | cons a rest ih =>
    intro n hl
    rcases List.pairwise_cons.mp hl with ⟨ha, hrest⟩
    refine List.pairwise_cons.mpr ⟨?_, ih hrest⟩
    intro c hc
    obtain ⟨b, hb, m, rfl⟩ := mem_formatSemantic hc
    exact H a b n m (ha b hb)

theorem formatKeyword_map_id (qw : Finset String) : ∀ (l : List Hit) (n : Nat),
    (formatKeyword qw l n).map (fun c => c.id) = l.map (fun h => h.id)
  | [], _ => rfl
  | r :: rest, n => by
    simp [formatKeyword, keyCand, formatKeyword_map_id qw rest (n + 1)]

theorem formatKeyword_map_rank (qw : Finset String) : ∀ (l : List Hit) (n : Nat),
    (formatKeyword qw l n).map (fun c => c.rank) = (List.range' (n + 1) l.length).map some
  | [], _ => rfl
  | r :: rest, n => by
    simp [formatKeyword, keyCand, List.range', formatKeyword_map_rank qw rest (n + 1)]

theorem mem_formatKeyword : ∀ {qw : Finset String} {l : List Hit} {n : Nat} {c : Cand},
    c ∈ formatKeyword qw l n → ∃ r ∈ l, ∃ m, c = keyCand qw r m := by
  intro qw l
  induction l with
  | nil => intro n c hc; simp [formatKeyword] at hc
  | cons r rest ih =>
    intro n c hc
    rcases List.mem_cons.mp hc with h | h
    · exact ⟨r, List.mem_cons_self r rest, n, h⟩
    · obtain ⟨r', hr', m, hm⟩ := ih h
      exact ⟨r', List.mem_cons_of_mem r hr', m, hm⟩

/-! ### The fusion dict -/

/-- The keys of the association list, in insertion order. -/
def keyIds (m : List (String × Entry)) : List String := m.map Prod.fst

theorem keyIds_upsertE (m : List (String × Entry)) (i : String) (e₀ : Entry)
    (f : Entry → Entry) :
    keyIds (upsertE m i e₀ f) =
      if m.any (fun p => p.1 == i) then keyIds m else keyIds m ++ [i] := by
  unfold upsertE
  by_cases h : (m.any fun p => p.1 == i) = true
  · rw [if_pos h, if_pos h]
    unfold keyIds
    rw [List.map_map]
    refine List.map_congr_left ?_
    intro p _
    by_cases hp : p.1 = i <;> simp [hp]
  · rw [if_neg h, if_neg h]
    simp [keyIds]

theorem keyIds_subset_upsertE (m : List (String × Entry)) (i : String) (e₀ : Entry)
    (f : Entry → Entry) : keyIds m ⊆ keyIds (upsertE m i e₀ f) := by
  rw [keyIds_upsertE]
  split
  · exact fun a ha => ha
  · exact fun a ha => List.mem_append_left _ ha

theorem self_mem_keyIds_upsertE (m : List (String × Entry)) (i : String) (e₀ : Entry)
    (f : Entry → Entry) : i ∈ keyIds (upsertE m i e₀ f) := by
  rw [keyIds_upsertE]
  split
  · rename_i h
    rcases List.any_eq_true.mp h with ⟨p, hp, hpi⟩
    exact (beq_iff_eq.mp hpi) ▸ List.mem_map_of_mem Prod.fst hp
  · exact List.mem_append_right _ (List.mem_singleton.mpr rfl)

theorem keyIds_upsertE_toFinset (m : List (String × Entry)) (i : String) (e₀ : Entry)
    (f : Entry → Entry) :
    (keyIds (upsertE m i e₀ f)).toFinset = insert i (keyIds m).toFinset := by
  rw [keyIds_upsertE]
  split
  · rename_i h
    rcases List.any_eq_true.mp h with ⟨p, hp, hpi⟩
    have : i ∈ (keyIds m).toFinset := by
      rw [List.mem_toFinset]
      exact (beq_iff_eq.mp hpi) ▸ List.mem_map_of_mem Prod.fst hp
    rw [Finset.insert_eq_self.mpr this]
  · ext a
    simp [or_comm]

/-- Membership in the upsert: either an (possibly updated) old binding, or
the fresh binding appended because the key was absent. -/
theorem mem_upsertE {m : List (String × Entry)} {i : String} {e₀ : Entry}
    {f : Entry → Entry} {p : String × Entry} (hm : p ∈ upsertE m i e₀ f) :
    (∃ q ∈ m, p = if q.1 = i then (q.1, f q.2) else q)
      ∨ (p = (i, e₀) ∧ i ∉ keyIds m) := by
  unfold upsertE at hm
  split at hm
  · rcases List.mem_map.mp hm with ⟨q, hq, hpq⟩
    refine Or.inl ⟨q, hq, ?_⟩
    subst hpq
    by_cases h : q.1 = i <;> simp [h]
  · rename_i hany
    rcases List.mem_append.mp hm with h | h
    · refine Or.inl ⟨p, h, ?_⟩
      have : ¬ p.1 = i := by
        intro hpi
        exact hany (List.any_eq_true.mpr ⟨p, h, beq_iff_eq.mpr hpi⟩)
      rw [if_neg this]
    · refine Or.inr ⟨List.mem_singleton.mp h, ?_⟩
      intro hi
      rcases List.mem_map.mp hi with ⟨q, hq, hqi⟩
      exact hany (List.any_eq_true.mpr ⟨q, hq, beq_iff_eq.mpr hqi⟩)

theorem semScoreOf_cons (c : Cand) (S : List Cand) (d : ℚ) (i : String) :
    semScoreOf (c :: S) d i
      = semScoreOf S (if c.id = i then c.similarity_score.getD 0 else d) i := rfl

theorem keyScoreOf_cons (c : Cand) (S : List Cand) (d : ℚ) (i : String) :
    keyScoreOf (c :: S) d i
      = keyScoreOf S (if c.id = i then c.bm25_score.getD 0 else d) i := rfl

theorem semScoreOf_of_forall_ne : ∀ {S : List Cand} {i : String} (d : ℚ),
    (∀ c ∈ S, c.id ≠ i) → semScoreOf S d i = d := by
  intro S
  induction S with
  | nil => intro i d _; rfl
  | cons c S ih =>
    intro i d h
    rw [semScoreOf_cons, if_neg (h c (List.mem_cons_self c S))]
    exact ih d (fun c' hc' => h c' (List.mem_cons_of_mem c hc'))

theorem keyScoreOf_of_forall_ne : ∀ {S : List Cand} {i : String} (d : ℚ),
    (∀ c ∈ S, c.id ≠ i) → keyScoreOf S d i = d := by
  intro S
  induction S with
  | nil => intro i d _; rfl
  | cons c S ih =>
    intro i d h
    rw [keyScoreOf_cons, if_neg (h c (List.mem_cons_self c S))]
    exact ih d (fun c' hc' => h c' (List.mem_cons_of_mem c hc'))

theorem keyIds_subset_fold_sem : ∀ (S : List Cand) (m : List (String × Entry)),
    keyIds m ⊆ keyIds (S.foldl addSemantic m)
  | [], _ => fun _ h => h
  | c :: S, m => fun a ha =>
    keyIds_subset_fold_sem S (addSemantic m c)
      (keyIds_subset_upsertE m c.id _ _ ha)

theorem keyIds_subset_fold_kw : ∀ (K : List Cand) (m : List (String × Entry)),
    keyIds m ⊆ keyIds (K.foldl addKeyword m)
  | [], _ => fun _ h => h
  | c :: K, m => fun a ha =>
    keyIds_subset_fold_kw K (addKeyword m c)
      (keyIds_subset_upsertE m c.id _ _ ha)

theorem ids_subset_fold_sem : ∀ (S : List Cand) (m : List (String × Entry)),
    ∀ c ∈ S, c.id ∈ keyIds (S.foldl addSemantic m) := by
  intro S
  induction S with
  | nil => intro m c hc; simp at hc
  | cons c S ih =>
    intro m c' hc'
    rcases List.mem_cons.mp hc' with h | h
    · subst h
      exact keyIds_subset_fold_sem S (addSemantic m c')
        (self_mem_keyIds_upsertE m c'.id _ _)
    · exact ih (addSemantic m c) c' h

/-- Characterisation of the entries produced by the semantic loop: an entry
is either an old binding whose `semantic_score` was (possibly) overwritten,
or a fresh binding created from a semantic result; either way its
`semantic_score` ends up being `semScoreOf`. -/
theorem sem_fold_mem : ∀ (S : List Cand) (m : List (String × Entry)) (p : String × Entry),
    p ∈ S.foldl addSemantic m →
      (∃ e ∈ m, p.1 = e.1 ∧ p.2.document = e.2.document
          ∧ p.2.keyword_score = e.2.keyword_score
          ∧ p.2.semantic_score = semScoreOf S e.2.semantic_score p.1)
      ∨ (p.1 ∉ keyIds m ∧ (∃ c ∈ S, c.id = p.1 ∧ p.2.document = c)
          ∧ p.2.keyword_score = 0
          ∧ p.2.semantic_score = semScoreOf S 0 p.1) := by
  intro S
  induction S with
  | nil =>
    intro m p hp
    exact Or.inl ⟨p, hp, rfl, rfl, rfl, rfl⟩
  | cons c S ih =>
    intro m p hp
    rcases ih (addSemantic m c) p hp with ⟨e', he', h1, h2, h3, h4⟩ | ⟨hnot, ⟨c', hc', hcid, hdoc⟩, hks, hss⟩
    · rcases mem_upsertE he' with ⟨q, hq, hqe⟩ | ⟨heq, hfresh⟩
      · by_cases hqi : q.1 = c.id
        · rw [if_pos hqi] at hqe
          rw [hqe] at h1 h2 h3 h4
          refine Or.inl ⟨q, hq, h1, h2, h3, ?_⟩
          rw [semScoreOf_cons, if_pos (by rw [h1]; exact hqi.symm)]
          exact h4
        · rw [if_neg hqi] at hqe
          rw [hqe] at h1 h2 h3 h4
          refine Or.inl ⟨q, hq, h1, h2, h3, ?_⟩
          rw [semScoreOf_cons, if_neg (by rw [h1]; exact fun hh => hqi hh.symm)]
          exact h4
      · have h1' : p.1 = c.id := by rw [h1, heq]
        have h2' : p.2.document = c := by rw [h2, heq]
        have h3' : p.2.keyword_score = 0 := by rw [h3, heq]
        have h4' : p.2.semantic_score = semScoreOf S (c.similarity_score.getD 0) p.1 := by
          rw [h4, heq]
        refine Or.inr ⟨by rw [h1']; exact hfresh,
          ⟨c, List.mem_cons_self c S, h1'.symm, h2'⟩, h3', ?_⟩
        rw [semScoreOf_cons, if_pos h1'.symm]
        exact h4'
    · have hne : p.1 ≠ c.id := by
        intro hh
        exact hnot (hh ▸ self_mem_keyIds_upsertE m c.id _ _)
      refine Or.inr ⟨fun hh => hnot (keyIds_subset_upsertE m c.id _ _ hh),
        ⟨c', List.mem_cons_of_mem c hc', hcid, hdoc⟩, hks, ?_⟩
      rw [semScoreOf_cons, if_neg (fun hh => hne hh.symm)]
      exact hss

/-- Characterisation of the entries after the keyword loop, symmetric to
`sem_fold_mem`. -/
theorem kw_fold_mem : ∀ (K : List Cand) (m : List (String × Entry)) (p : String × Entry),
    p ∈ K.foldl addKeyword m →
      (∃ e ∈ m, p.1 = e.1 ∧ p.2.document = e.2.document
          ∧ p.2.semantic_score = e.2.semantic_score
          ∧ p.2.keyword_score = keyScoreOf K e.2.keyword_score p.1)
      ∨ (p.1 ∉ keyIds m ∧ (∃ c ∈ K, c.id = p.1 ∧ p.2.document = c)
          ∧ p.2.semantic_score = 0
          ∧ p.2.keyword_score = keyScoreOf K 0 p.1) := by
  intro K
  induction K with
  | nil =>
    intro m p hp
    exact Or.inl ⟨p, hp, rfl, rfl, rfl, rfl⟩
  | cons c K ih =>
    intro m p hp
    rcases ih (addKeyword m c) p hp with ⟨e', he', h1, h2, h3, h4⟩ | ⟨hnot, ⟨c', hc', hcid, hdoc⟩, hss, hks⟩
    · rcases mem_upsertE he' with ⟨q, hq, hqe⟩ | ⟨heq, hfresh⟩
      · by_cases hqi : q.1 = c.id
        · rw [if_pos hqi] at hqe
          rw [hqe] at h1 h2 h3 h4
          refine Or.inl ⟨q, hq, h1, h2, h3, ?_⟩
          rw [keyScoreOf_cons, if_pos (by rw [h1]; exact hqi.symm)]
          exact h4
        · rw [if_neg hqi] at hqe
          rw [hqe] at h1 h2 h3 h4
          refine Or.inl ⟨q, hq, h1, h2, h3, ?_⟩
          rw [keyScoreOf_cons, if_neg (by rw [h1]; exact fun hh => hqi hh.symm)]
          exact h4
      · have h1' : p.1 = c.id := by rw [h1, heq]
        have h2' : p.2.document = c := by rw [h2, heq]
        have h3' : p.2.semantic_score = 0 := by rw [h3, heq]
        have h4' : p.2.keyword_score = keyScoreOf K (c.bm25_score.getD 0) p.1 := by
          rw [h4, heq]
        refine Or.inr ⟨by rw [h1']; exact hfresh,
          ⟨c, List.mem_cons_self c K, h1'.symm, h2'⟩, h3', ?_⟩
        rw [keyScoreOf_cons, if_pos h1'.symm]
        exact h4'
    · have hne : p.1 ≠ c.id := by
        intro hh
        exact hnot (hh ▸ self_mem_keyIds_upsertE m c.id _ _)
      refine Or.inr ⟨fun hh => hnot (keyIds_subset_upsertE m c.id _ _ hh),
        ⟨c', List.mem_cons_of_mem c hc', hcid, hdoc⟩, hss, ?_⟩
      rw [keyScoreOf_cons, if_neg (fun hh => hne hh.symm)]
      exact hks

/-- Characterisation of every entry of the fully built fusion dict. -/
theorem hybrid_entry_char (S K : List Cand) (p : String × Entry)
    (hp : p ∈ K.foldl addKeyword (S.foldl addSemantic [])) :
    p.2.document.id = p.1 ∧ (p.2.document ∈ S ∨ p.2.document ∈ K)
      ∧ p.2.semantic_score = semScoreOf S 0 p.1
      ∧ p.2.keyword_score = keyScoreOf K 0 p.1 := by
  rcases kw_fold_mem K _ p hp with ⟨e, he, h1, h2, h3, h4⟩ | ⟨hnot, ⟨c, hc, hcid, hdoc⟩, hss, hks⟩
  · rcases sem_fold_mem S [] e he with ⟨e', he', _⟩ | ⟨_, ⟨c, hc, hcid, hdoc⟩, hks0, hss0⟩
    · simp at he'
    · refine ⟨?_, Or.inl (by rw [h2, hdoc]; exact hc), ?_, ?_⟩
      · rw [h2, hdoc, h1]
        exact hcid
      · rw [h3, hss0, h1]
      · rw [h4, h1]
        exact congrArg (fun d => keyScoreOf K d e.1) hks0
  · refine ⟨by rw [hdoc, hcid], Or.inr (by rw [hdoc]; exact hc), ?_, hks⟩
    rw [hss, semScoreOf_of_forall_ne]
    intro c' hc' hc'id
    exact hnot (hc'id ▸ ids_subset_fold_sem S [] c' hc')

/-- The key set of the fusion dict is the union of the two id sets. -/
theorem keyIds_fold_sem_toFinset : ∀ (S : List Cand) (m : List (String × Entry)),
    (keyIds (S.foldl addSemantic m)).toFinset
      = (keyIds m).toFinset ∪ (S.map (fun c => c.id)).toFinset := by
  intro S
  induction S with
  | nil => intro m; simp
  | cons c S ih =>
    intro m
    rw [List.foldl_cons, ih (addSemantic m c)]
    rw [show keyIds (addSemantic m c) = keyIds (upsertE m c.id _ _) from rfl,
      keyIds_upsertE_toFinset]
    ext a
    simp [or_comm, or_assoc, or_left_comm]

theorem keyIds_fold_kw_toFinset : ∀ (K : List Cand) (m : List (String × Entry)),
    (keyIds (K.foldl addKeyword m)).toFinset
      = (keyIds m).toFinset ∪ (K.map (fun c => c.id)).toFinset := by
  intro K
  induction K with
  | nil => intro m; simp
  | cons c K ih =>
    intro m
    rw [List.foldl_cons, ih (addKeyword m c)]
    rw [show keyIds (addKeyword m c) = keyIds (upsertE m c.id _ _) from rfl,
      keyIds_upsertE_toFinset]
    ext a
    simp [or_comm, or_assoc, or_left_comm]

/-! ### Score bounds -/

theorem mem_scoresOf {c : Cand} {s : ℚ} :
    s ∈ scoresOf c ↔
      (c.similarity_score = some s ∨ c.bm25_score = some s ∨ c.semantic_score = some s
        ∨ c.keyword_score = some s ∨ c.combined_score = some s
        ∨ c.reranked_score = some s) := by
  simp only [scoresOf, List.mem_filterMap, List.mem_cons, List.mem_singleton, id]
  constructor
  · rintro ⟨a, ha, rfl⟩
    rcases ha with h | h | h | h | h | h | h
    · exact Or.inl h.symm
    · exact Or.inr (Or.inl h.symm)
    · exact Or.inr (Or.inr (Or.inl h.symm))
    · exact Or.inr (Or.inr (Or.inr (Or.inl h.symm)))
    · exact Or.inr (Or.inr (Or.inr (Or.inr (Or.inl h.symm))))
    · exact Or.inr (Or.inr (Or.inr (Or.inr (Or.inr h.symm))))
    · simp at h
  · rintro (h | h | h | h | h | h) <;>
      exact ⟨some s, by rw [← h]; simp, rfl⟩

theorem scoresBounded_getD_sim {c : Cand} (h : scoresBounded c) :
    0 ≤ c.similarity_score.getD 0 ∧ c.similarity_score.getD 0 ≤ 1 := by
  cases hc : c.similarity_score with
  | none => simp
  | some s => simpa using h s (mem_scoresOf.mpr (Or.inl hc))

theorem scoresBounded_getD_bm25 {c : Cand} (h : scoresBounded c) :
    0 ≤ c.bm25_score.getD 0 ∧ c.bm25_score.getD 0 ≤ 1 := by
  cases hc : c.bm25_score with
  | none => simp
  | some s => simpa using h s (mem_scoresOf.mpr (Or.inr (Or.inl hc)))

theorem semScoreOf_bound {P : ℚ → Prop} : ∀ {S : List Cand} {d : ℚ} {i : String},
    (∀ c ∈ S, P (c.similarity_score.getD 0)) → P d → P (semScoreOf S d i) := by
  intro S
  induction S with
  | nil => intro d i _ hd; exact hd
  | cons c S ih =>
    intro d i hS hd
    rw [semScoreOf_cons]
    refine ih (fun c' hc' => hS c' (List.mem_cons_of_mem c hc')) ?_
    by_cases h : c.id = i
    · rw [if_pos h]; exact hS c (List.mem_cons_self c S)
    · rw [if_neg h]; exact hd

theorem keyScoreOf_bound {P : ℚ → Prop} : ∀ {K : List Cand} {d : ℚ} {i : String},
    (∀ c ∈ K, P (c.bm25_score.getD 0)) → P d → P (keyScoreOf K d i) := by
  intro K
  induction K with
  | nil => intro d i _ hd; exact hd
  | cons c K ih =>
    intro d i hK hd
    rw [keyScoreOf_cons]
    refine ih (fun c' hc' => hK c' (List.mem_cons_of_mem c hc')) ?_
    by_cases h : c.id = i
    · rw [if_pos h]; exact hK c (List.mem_cons_self c K)
    · rw [if_neg h]; exact hd

theorem overlap_bound (qw cw : Finset String) :
    0 ≤ (if 0 < qw.card then ((qw ∩ cw).card : ℚ) / (qw.card : ℚ) else 0)
      ∧ (if 0 < qw.card then ((qw ∩ cw).card : ℚ) / (qw.card : ℚ) else 0) ≤ 1 := by
  by_cases h : 0 < qw.card
  · rw [if_pos h]
    constructor
    · exact div_nonneg (Nat.cast_nonneg _) (Nat.cast_nonneg _)
    · rw [div_le_one (by exact_mod_cast h)]
      exact_mod_cast Finset.card_le_card Finset.inter_subset_left
  · rw [if_neg h]
    norm_num

theorem semanticRetrieve_bounded (eg : EmbedGen) (vs : VectorStore) (q : String)
    (top_k : Nat) (hD : ∀ h ∈ vs q top_k, 0 ≤ h.distance ∧ h.distance ≤ 1) :
    ∀ c ∈ semanticRetrieve eg vs q top_k, scoresBounded c := by
  intro c hc
  unfold semanticRetrieve at hc
  split at hc
  · simp at hc
  · obtain ⟨r, hr, m, rfl⟩ := mem_formatSemantic hc
    have hr' : r ∈ vs q top_k := (List.mem_insertionSort _).mp hr
    intro s hs
    rcases mem_scoresOf.mp hs with h | h | h | h | h | h
    · rcases hD r hr' with ⟨h0, h1⟩
      rw [← Option.some.inj h]
      constructor <;> linarith
    · exact absurd h (by simp [semCand])
    · exact absurd h (by simp [semCand])
    · exact absurd h (by simp [semCand])
    · exact absurd h (by simp [semCand])
    · exact absurd h (by simp [semCand])

theorem keywordRetrieve_bounded (vs : VectorStore) (q : String) (top_k : Nat) :
    ∀ c ∈ keywordRetrieve vs q top_k, scoresBounded c := by
  intro c hc
  unfold keywordRetrieve at hc
  obtain ⟨r, _, m, rfl⟩ := mem_formatKeyword hc
  intro s hs
  rcases mem_scoresOf.mp hs with h | h | h | h | h | h
  · exact absurd h (by simp [keyCand])
  · rw [← Option.some.inj h]
    exact overlap_bound (wordFinset q) (wordFinset r.content)
  · exact absurd h (by simp [keyCand])
  · exact absurd h (by simp [keyCand])
  · exact absurd h (by simp [keyCand])
  · exact absurd h (by simp [keyCand])

theorem hybridCombined_bounded (sw kw : ℚ) (eg : EmbedGen) (vs : VectorStore)
    (q : String) (top_k : Nat)
    (hD : ∀ h ∈ vs q (top_k * 2), 0 ≤ h.distance ∧ h.distance ≤ 1)
    (hsw : 0 ≤ sw) (hkw : 0 ≤ kw) (hsum : sw + kw = 1) :
    ∀ c ∈ hybridCombined sw kw eg vs q top_k, scoresBounded c := by
  intro c hc
  unfold hybridCombined at hc
  rcases List.mem_map.mp hc with ⟨p, hp, rfl⟩
  obtain ⟨hdocid, hdoc, hss, hks⟩ :=
    hybrid_entry_char (semanticRetrieve eg vs q (top_k * 2))
      (keywordRetrieve vs q (top_k * 2)) p hp
  have hdocB : scoresBounded p.2.document := by
    rcases hdoc with h | h
    · exact semanticRetrieve_bounded eg vs q (top_k * 2) hD _ h
    · exact keywordRetrieve_bounded vs q (top_k * 2) _ h
  have hssB : 0 ≤ p.2.semantic_score ∧ p.2.semantic_score ≤ 1 := by
    rw [hss]
    exact semScoreOf_bound (P := fun x => 0 ≤ x ∧ x ≤ 1)
      (fun c' hc' => scoresBounded_getD_sim
        (semanticRetrieve_bounded eg vs q (top_k * 2) hD c' hc'))
      (by norm_num)
  have hksB : 0 ≤ p.2.keyword_score ∧ p.2.keyword_score ≤ 1 := by
    rw [hks]
    exact keyScoreOf_bound (P := fun x => 0 ≤ x ∧ x ≤ 1)
      (fun c' hc' => scoresBounded_getD_bm25
        (keywordRetrieve_bounded vs q (top_k * 2) c' hc'))
      (by norm_num)
  intro s hs
  rcases mem_scoresOf.mp hs with h | h | h | h | h | h
  · exact hdocB s (mem_scoresOf.mpr (Or.inl h))
  · exact hdocB s (mem_scoresOf.mpr (Or.inr (Or.inl h)))
  · simp [fuseCand] at h
    rw [← h]
    exact hssB
  · simp [fuseCand] at h
    rw [← h]
    exact hksB
  · simp [fuseCand] at h
    rw [← h]
    constructor
    · have := mul_nonneg hsw hssB.1
      have := mul_nonneg hkw hksB.1
      linarith
    · have h1 : sw * p.2.semantic_score ≤ sw * 1 :=
        mul_le_mul_of_nonneg_left hssB.2 hsw
      have h2 : kw * p.2.keyword_score ≤ kw * 1 :=
        mul_le_mul_of_nonneg_left hksB.2 hkw
      have : sw * p.2.semantic_score + kw * p.2.keyword_score ≤ sw + kw := by linarith
      linarith [hsum ▸ this]
  · exact hdocB s (mem_scoresOf.mpr (Or.inr (Or.inr (Or.inr (Or.inr (Or.inr h))))))

theorem hybridRetrieve_bounded (sw kw : ℚ) (eg : EmbedGen) (vs : VectorStore)
    (q : String) (top_k : Nat)
    (hD : ∀ h ∈ vs q (top_k * 2), 0 ≤ h.distance ∧ h.distance ≤ 1)
    (hsw : 0 ≤ sw) (hkw : 0 ≤ kw) (hsum : sw + kw = 1) :
    ∀ c ∈ hybridRetrieve sw kw eg vs q top_k, scoresBounded c := by
  intro c hc
  have hc' : c ∈ hybridSorted sw kw eg vs q top_k := List.take_subset _ _ hc
  have hc'' : c ∈ hybridCombined sw kw eg vs q top_k :=
    (List.mem_insertionSort _).mp hc'
  exact hybridCombined_bounded sw kw eg vs q top_k hD hsw hkw hsum c hc''

theorem mem_filterByBook {b : Option String} {l : List Cand} {c : Cand}
    (hc : c ∈ filterByBook b l) : c ∈ l := by
  cases b with
  | none => exact hc
  | some s =>
    simp only [filterByBook] at hc
    by_cases hs : s = ""
    · rw [if_pos hs] at hc; exact hc
    · rw [if_neg hs] at hc; exact List.mem_of_mem_filter hc

theorem rerankOne_bounded (q : String) (r : Cand) (hr : scoresBounded r) :
    scoresBounded (rerankOne q r) := by
  intro s hs
  rcases mem_scoresOf.mp hs with h | h | h | h | h | h <;>
    simp only [rerankOne] at h
  · exact hr s (mem_scoresOf.mpr (Or.inl h))
  · exact hr s (mem_scoresOf.mpr (Or.inr (Or.inl h)))
  · exact hr s (mem_scoresOf.mpr (Or.inr (Or.inr (Or.inl h))))
  · exact hr s (mem_scoresOf.mpr (Or.inr (Or.inr (Or.inr (Or.inl h)))))
  · exact hr s (mem_scoresOf.mpr (Or.inr (Or.inr (Or.inr (Or.inr (Or.inl h))))))
  · have hprior : 0 ≤ r.combined_score.getD (r.semantic_score.getD 0)
        ∧ r.combined_score.getD (r.semantic_score.getD 0) ≤ 1 := by
      cases hcs : r.combined_score with
      | some v => simpa using hr v (mem_scoresOf.mpr (Or.inr (Or.inr (Or.inr (Or.inr (Or.inl hcs))))))
      | none =>
        cases hss : r.semantic_score with
        | some v => simpa using hr v (mem_scoresOf.mpr (Or.inr (Or.inr (Or.inl hss))))
        | none => simp
    have hto := overlap_bound (wordFinset q) (pyWords r.content).toFinset
    have hlen : (0:ℚ) ≤ (if (pyWords r.content).length < 20 ∨ 500 < (pyWords r.content).length
          then (1:ℚ)/2 else 1)
        ∧ (if (pyWords r.content).length < 20 ∨ 500 < (pyWords r.content).length
          then (1:ℚ)/2 else 1) ≤ 1 := by
      split <;> norm_num
    simp only [Option.some.injEq] at h
    rw [← h]
    constructor <;> [nlinarith [hprior.1, hto.1, hlen.1]; nlinarith [hprior.2, hto.2, hlen.2]]

theorem retrieve_with_reranking_bounded (eg : EmbedGen) (vs : VectorStore)
    (q : String) (book_id : Option String) (top_k : Nat)
    (hD : ∀ h ∈ vs q (top_k * 2 * 2), 0 ≤ h.distance ∧ h.distance ≤ 1) :
    ∀ c ∈ retrieve_with_reranking eg vs q book_id top_k, scoresBounded c := by
  intro c hc
  unfold retrieve_with_reranking at hc
  have hc1 := List.take_subset _ _ hc
  unfold rerankResults at hc1
  have hc2 := (List.mem_insertionSort _).mp hc1
  rcases List.mem_map.mp hc2 with ⟨r, hr, rfl⟩
  have hr' := mem_filterByBook hr
  exact rerankOne_bounded q r
    (hybridRetrieve_bounded (7/10) (3/10) eg vs q (top_k * 2) hD
      (by norm_num) (by norm_num) (by norm_num) r hr')

/-! ### Concrete collaborators and candidates for witnesses and
counterexamples -/

def hitX : Hit := { id := "d1", content := "x", metadata := { book_id := none }, distance := 1/10 }

def hitA : Hit := { id := "d2", content := "a", metadata := { book_id := none }, distance := 1/5 }

/-- An index that always returns the same two hits (ignoring `n_results`). -/
def vsAB : VectorStore := fun _ _ => [hitX, hitA]

/-- An index that honours `n_results`. -/
def vsTake : VectorStore := fun _ n => [hitX, hitA].take n

def egOne : EmbedGen := fun _ => [1]

def egNone : EmbedGen := fun _ => []

def hitZero : Hit := { id := "e1", content := "x", metadata := { book_id := none }, distance := 0 }

def vsZero : VectorStore := fun _ _ => [hitZero]

def candA : Cand := { id := "c1", content := "t", metadata := { book_id := some "A" } }

def candB : Cand := { id := "c2", content := "u", metadata := { book_id := some "B" } }

def kcX : Cand :=
  { id := "d1", content := "x", metadata := { book_id := none },
    bm25_score := some 0, rank := some 1 }

def kcA : Cand :=
  { id := "d2", content := "a", metadata := { book_id := none },
    bm25_score := some 1, rank := some 2 }

theorem kwAB_eval (n : Nat) : keywordRetrieve vsAB "a" n = [kcX, kcA] := by
  have h1 : (wordFinset "a").card = 1 := by decide
  have h2 : (wordFinset "a" ∩ wordFinset "x").card = 0 := by decide
  have h3 : (wordFinset "a" ∩ wordFinset "a").card = 1 := by decide
  simp [keywordRetrieve, formatKeyword, keyCand, vsAB, hitX, hitA, h1, h2, h3, kcX, kcA]

def scX : Cand :=
  { id := "d1", content := "x", metadata := { book_id := none },
    similarity_score := some (9/10), rank := some 1 }

def scA : Cand :=
  { id := "d2", content := "a", metadata := { book_id := none },
    similarity_score := some (4/5), rank := some 2 }

theorem semAB_eval (q : String) (n : Nat) : semanticRetrieve egOne vsAB q n = [scX, scA] := by
  norm_num [semanticRetrieve, egOne, vsAB, List.insertionSort, List.orderedInsert, distLe,
    formatSemantic, semCand, hitX, hitA, scX, scA]

def hcX : Cand :=
  { id := "d1", content := "x", metadata := { book_id := none },
    similarity_score := some (9/10), semantic_score := some (9/10),
    keyword_score := some 0, combined_score := some (63/100), rank := some 1 }

def hcA : Cand :=
  { id := "d2", content := "a", metadata := { book_id := none },
    similarity_score := some (4/5), semantic_score := some (4/5),
    keyword_score := some 1, combined_score := some (43/50), rank := some 2 }

theorem hybAB_comb_eval : hybridCombined (7/10) (3/10) egOne vsAB "a" 2 = [hcX, hcA] := by
  have h1 : (wordFinset "a").card = 1 := by decide
  have h2 : (wordFinset "a" ∩ wordFinset "x").card = 0 := by decide
  have h3 : (wordFinset "a" ∩ wordFinset "a").card = 1 := by decide
  norm_num +decide [hybridCombined, fuseCand, kwAB_eval, semAB_eval, List.foldl,
    addSemantic, addKeyword, upsertE, scX, scA, kcX, kcA, keyCand, hitX, hitA, List.any,
    h1, h2, h3, hcX, hcA]

theorem hybAB_eval : hybridRetrieve (7/10) (3/10) egOne vsAB "a" 2 = [hcA, hcX] := by
  have hs : ([hcX, hcA].insertionSort fusedGe) = [hcA, hcX] := by
    norm_num [List.insertionSort, List.orderedInsert, fusedGe, hcX, hcA]
  rw [hybridRetrieve, hybridSorted, hybAB_comb_eval, hs]
  rfl

/-! ### C2 — the reranked score formula -/

/-- C2: for every candidate passed to the Reranker, the reranked score is
`0.5 × prior + 0.3 × term_overlap + 0.1 × length_score + 0.1 × position_score`
where `prior` is the fused score if present else the semantic score else 0,
`term_overlap` is `|query_words ∩ content_words| / |query_words|` (0 for an
empty query word set), `length_score` is 1 exactly when the content word
count lies in `[20, 500]` and `1/2` otherwise, and `position_score` is
always 1; moreover the reranker scores exactly the input candidates. -/
theorem C2_rerank_formula (q : String) :
    (∀ r : Cand, (rerankOne q r).reranked_score
      = some ((1/2) * (r.combined_score.getD (r.semantic_score.getD 0))
          + (3/10) * (if (wordFinset q).card = 0 then 0
              else ((wordFinset q ∩ (pyWords r.content).toFinset).card : ℚ)
                / ((wordFinset q).card : ℚ))
          + (1/10) * (if 20 ≤ (pyWords r.content).length ∧ (pyWords r.content).length ≤ 500
              then 1 else (1/2))
          + (1/10) * 1))
    ∧ ∀ rs : List Cand, (rerankResults q rs).Perm (rs.map (rerankOne q)) := by
  constructor
  · intro r
    have h1 : (if 0 < (wordFinset q).card
          then ((wordFinset q ∩ (pyWords r.content).toFinset).card : ℚ)
            / ((wordFinset q).card : ℚ) else 0)
        = (if (wordFinset q).card = 0 then 0
            else ((wordFinset q ∩ (pyWords r.content).toFinset).card : ℚ)
              / ((wordFinset q).card : ℚ)) := by
      rcases Nat.eq_zero_or_pos (wordFinset q).card with h | h
      · rw [if_neg (by omega), if_pos h]
      · rw [if_pos h, if_neg (by omega)]
    have h2 : (if (pyWords r.content).length < 20 ∨ 500 < (pyWords r.content).length
          then (1:ℚ)/2 else 1)
        = (if 20 ≤ (pyWords r.content).length ∧ (pyWords r.content).length ≤ 500
            then 1 else (1/2)) := by
      by_cases h : (pyWords r.content).length < 20 ∨ 500 < (pyWords r.content).length
      · rw [if_pos h, if_neg (by omega)]
      · rw [if_neg h, if_pos (by omega)]
    simp only [rerankOne]
    rw [h1, h2]
  · intro rs
    exact List.perm_insertionSort _ _

/-! ### C3 — keyword output is not sorted by its score -/

/-- C3 counterexample: for the query `"a"` against an index returning a
non-matching document before a matching one, KeywordStrategy's output has
scores `[0, 1]` — not in descending order. -/
theorem C3_counterexample :
    ¬ ((keywordRetrieve vsAB "a" 2).Pairwise
        (fun x y => (y.bm25_score.getD 0) ≤ (x.bm25_score.getD 0))) := by
  rw [kwAB_eval]
  intro h
  have := (List.pairwise_cons.mp h).1 kcA (List.mem_cons_self _ _)
  simp [kcX, kcA] at this
  norm_num at this

/-- C3 amended: KeywordStrategy's output keeps the backing index's order
(its ids are the index's ids in order and its ranks are the 1-based
positions); it is not re-sorted by the keyword score. -/
theorem C3_amended (vs : VectorStore) (q : String) (top_k : Nat) :
    ((keywordRetrieve vs q top_k).map (fun c => c.id) = (vs q top_k).map (fun h => h.id))
    ∧ ((keywordRetrieve vs q top_k).map (fun c => c.rank)
        = (List.range' 1 (vs q top_k).length).map some) :=
  ⟨formatKeyword_map_id _ _ _, formatKeyword_map_rank _ _ _⟩

/-! ### C6 — empty query -/

/-- C6 counterexample: with an empty query, KeywordStrategy still returns
whatever the backing index returned (scored 0), not an empty sequence. -/
theorem C6_counterexample : keywordRetrieve vsAB "" 1 ≠ [] := by
  simp [keywordRetrieve, vsAB, formatKeyword]

/-- C6 amended: an empty query is no error; KeywordStrategy scores every
returned candidate 0 (the result mirrors the index's recall pool instead of
being empty). -/
theorem C6_amended (vs : VectorStore) (top_k : Nat) :
    (keywordRetrieve vs "" top_k).Forall (fun c => c.bm25_score = some 0) := by
  rw [List.forall_iff_forall_mem]
  intro c hc
  obtain ⟨r, _, m, rfl⟩ := mem_formatKeyword hc
  have h0 : (wordFinset "").card = 0 := by decide
  simp [keyCand, h0]

/-! ### C7 — `top_k < 1` is not rejected -/

/-- C7: no service operation validates `top_k`; a call with `top_k = 0`
completes normally and returns an ordinary (empty) list instead of raising
an invalid-argument error (none of the embedded operations has an error
outcome at all, mirroring the absence of any `raise` in the source). -/
theorem C7_no_topk_validation :
    retrieve_by_semantic_similarity egOne vsTake "q" none 0 = []
    ∧ retrieve_by_keyword_matching vsTake "q" none 0 = []
    ∧ retrieve_hybrid egOne vsTake "q" none 0 = []
    ∧ retrieve_with_reranking egOne vsTake "q" none 0 = [] := by
  refine ⟨rfl, rfl, rfl, rfl⟩

/-! ### C8 — book filtering -/

/-- C8 counterexample: with the empty-string `book_id` (supplied, but falsy
in Python), the filter is skipped entirely, so a candidate whose
`metadata.book_id` differs from the requested one survives. -/
theorem C8_counterexample :
    ∃ c ∈ filterByBook (some "") [candA], c.metadata.book_id ≠ some "" := by
  decide

/-- C8 amended: for every non-empty `book_id`, the service filter removes
exactly the candidates whose `metadata.book_id` differs, preserves the
relative order (sublist) and all fields of the survivors, and can only
shrink the list (fewer than `top_k` results is possible, never an error or
padding). -/
theorem C8_amended (b : String) (hb : b ≠ "") :
    ∀ rs : List Cand,
      filterByBook (some b) rs = rs.filter (fun r => r.metadata.book_id == some b)
      ∧ (∀ c, c ∈ filterByBook (some b) rs ↔ c ∈ rs ∧ c.metadata.book_id = some b)
      ∧ (filterByBook (some b) rs).Sublist rs
      ∧ (filterByBook (some b) rs).length ≤ rs.length
      ∧ ∀ (eg : EmbedGen) (vs : VectorStore) (q : String) (k : Nat),
          retrieve_by_semantic_similarity eg vs q (some b) k
            = (semanticRetrieve eg vs q k).filter (fun r => r.metadata.book_id == some b) := by
  intro rs
  have hfb : ∀ l : List Cand,
      filterByBook (some b) l = l.filter (fun r => r.metadata.book_id == some b) := by
    intro l
    simp only [filterByBook]
    rw [if_neg hb]
  refine ⟨hfb rs, ?_, ?_, ?_, ?_⟩
  · intro c
    rw [hfb rs, List.mem_filter]
    simp
  · rw [hfb rs]
    exact List.filter_sublist rs
  · rw [hfb rs]
    exact List.length_filter_le _ _
  · intro eg vs q k
    unfold retrieve_by_semantic_similarity
    exact hfb _

/-- C8 witness at `book_id = "B"` and a concrete two-candidate list. -/
theorem C8_witness :
    ("B" ≠ "")
    ∧ (filterByBook (some "B") [candA, candB]
          = [candA, candB].filter (fun r => r.metadata.book_id == some "B")
        ∧ (∀ c, c ∈ filterByBook (some "B") [candA, candB]
            ↔ c ∈ [candA, candB] ∧ c.metadata.book_id = some "B")
        ∧ (filterByBook (some "B") [candA, candB]).Sublist [candA, candB]
        ∧ (filterByBook (some "B") [candA, candB]).length ≤ [candA, candB].length
        ∧ ∀ (eg : EmbedGen) (vs : VectorStore) (q : String) (k : Nat),
            retrieve_by_semantic_similarity eg vs q (some "B") k
              = (semanticRetrieve eg vs q k).filter (fun r => r.metadata.book_id == some "B")) :=
  ⟨by decide, C8_amended "B" (by decide) [candA, candB]⟩

/-! ### C10 — reranking is a frame-preserving permutation -/

/-- C10: the Reranker's output is a permutation of the per-candidate
rescoring of its input (one output per input, none dropped or duplicated,
equal length), and the rescoring of a candidate only adds a reranked score:
ids, content, metadata, all previous scores and the rank are unchanged. -/
theorem C10_rerank_frame (q : String) :
    (∀ rs : List Cand, (rerankResults q rs).Perm (rs.map (rerankOne q))
        ∧ (rerankResults q rs).length = rs.length)
    ∧ (∀ r : Cand, (rerankOne q r).id = r.id ∧ (rerankOne q r).content = r.content
        ∧ (rerankOne q r).metadata = r.metadata
        ∧ (rerankOne q r).similarity_score = r.similarity_score
        ∧ (rerankOne q r).bm25_score = r.bm25_score
        ∧ (rerankOne q r).semantic_score = r.semantic_score
        ∧ (rerankOne q r).keyword_score = r.keyword_score
        ∧ (rerankOne q r).combined_score = r.combined_score
        ∧ (rerankOne q r).rank = r.rank
        ∧ ((rerankOne q r).reranked_score).isSome = true) := by
  refine ⟨fun rs => ⟨List.perm_insertionSort _ _, ?_⟩, fun r =>
    ⟨rfl, rfl, rfl, rfl, rfl, rfl, rfl, rfl, rfl, rfl⟩⟩
  rw [rerankResults, List.length_insertionSort, List.length_map]

/-! ### C1 — union completeness and the fusion formula -/

theorem formatSemantic_length : ∀ (l : List Hit) (n : Nat),
    (formatSemantic l n).length = l.length
  | [], _ => rfl
  | _ :: rest, n => by simp [formatSemantic, formatSemantic_length rest (n + 1)]

theorem formatKeyword_length (qw : Finset String) : ∀ (l : List Hit) (n : Nat),
    (formatKeyword qw l n).length = l.length
  | [], _ => rfl
  | _ :: rest, n => by simp [formatKeyword, formatKeyword_length qw rest (n + 1)]

/-- C1: for every query, weights and `top_k ≥ 1`: the fused candidate pool's
identity set equals the union of the identity sets of the semantic and
keyword sub-retrievals (each requested with `top_k * 2`); every fused
candidate's combined score is `semantic_weight × semantic score +
keyword_weight × keyword score`, a missing sub-score contributing 0
(`semScoreOf`/`keyScoreOf` read a strategy's score for an id, defaulting
to 0); the sort drops no candidate (it is a permutation of the pool); and
the output is the first `top_k` of the sorted pool, hence has at most
`top_k` entries. -/
theorem C1_union_and_fusion (sw kw : ℚ) (eg : EmbedGen) (vs : VectorStore)
    (q : String) (top_k : Nat) (hk : 1 ≤ top_k) :
    (((hybridCombined sw kw eg vs q top_k).map (fun c => c.id)).toFinset
      = ((semanticRetrieve eg vs q (top_k * 2)).map (fun c => c.id)).toFinset
        ∪ ((keywordRetrieve vs q (top_k * 2)).map (fun c => c.id)).toFinset)
    ∧ ((hybridCombined sw kw eg vs q top_k).Forall (fun c =>
        c.combined_score
          = some (sw * semScoreOf (semanticRetrieve eg vs q (top_k * 2)) 0 c.id
            + kw * keyScoreOf (keywordRetrieve vs q (top_k * 2)) 0 c.id)))
    ∧ (hybridSorted sw kw eg vs q top_k).Perm (hybridCombined sw kw eg vs q top_k)
    ∧ hybridRetrieve sw kw eg vs q top_k = (hybridSorted sw kw eg vs q top_k).take top_k
    ∧ (hybridRetrieve sw kw eg vs q top_k).length ≤ top_k := by
  refine ⟨?_, ?_, List.perm_insertionSort _ _, rfl, List.length_take_le _ _⟩
  · have hmap : (hybridCombined sw kw eg vs q top_k).map (fun c => c.id)
        = keyIds ((keywordRetrieve vs q (top_k * 2)).foldl addKeyword
            ((semanticRetrieve eg vs q (top_k * 2)).foldl addSemantic [])) := by
      unfold hybridCombined keyIds
      rw [List.map_map]
      refine List.map_congr_left ?_
      intro p hp
      exact (hybrid_entry_char _ _ p hp).1
    rw [hmap, keyIds_fold_kw_toFinset, keyIds_fold_sem_toFinset]
    simp [keyIds]
  · rw [List.forall_iff_forall_mem]
    intro c hc
    unfold hybridCombined at hc
    rcases List.mem_map.mp hc with ⟨p, hp, rfl⟩
    obtain ⟨hid, _, hss, hks⟩ := hybrid_entry_char _ _ p hp
    show some (sw * p.2.semantic_score + kw * p.2.keyword_score)
      = some (sw * semScoreOf (semanticRetrieve eg vs q (top_k * 2)) 0 p.2.document.id
        + kw * keyScoreOf (keywordRetrieve vs q (top_k * 2)) 0 p.2.document.id)
    rw [hid, hss, hks]

/-- C1 witness at the concrete two-document index, query `"a"`,
`top_k = 2` and the default weights. -/
theorem C1_witness :
    (1 ≤ 2)
    ∧ ((((hybridCombined (7/10) (3/10) egOne vsAB "a" 2).map (fun c => c.id)).toFinset
        = ((semanticRetrieve egOne vsAB "a" (2 * 2)).map (fun c => c.id)).toFinset
          ∪ ((keywordRetrieve vsAB "a" (2 * 2)).map (fun c => c.id)).toFinset)
      ∧ ((hybridCombined (7/10) (3/10) egOne vsAB "a" 2).Forall (fun c =>
          c.combined_score
            = some ((7/10) * semScoreOf (semanticRetrieve egOne vsAB "a" (2 * 2)) 0 c.id
              + (3/10) * keyScoreOf (keywordRetrieve vsAB "a" (2 * 2)) 0 c.id)))
      ∧ (hybridSorted (7/10) (3/10) egOne vsAB "a" 2).Perm
          (hybridCombined (7/10) (3/10) egOne vsAB "a" 2)
      ∧ hybridRetrieve (7/10) (3/10) egOne vsAB "a" 2
          = (hybridSorted (7/10) (3/10) egOne vsAB "a" 2).take 2
      ∧ (hybridRetrieve (7/10) (3/10) egOne vsAB "a" 2).length ≤ 2) :=
  ⟨by norm_num, C1_union_and_fusion (7/10) (3/10) egOne vsAB "a" 2 (by norm_num)⟩

/-! ### C4 — ranks are not recomputed after fusion or reranking -/

/-- C4 counterexample: on the concrete two-document index the hybrid output
carries the stale ranks `[2, 1]` inherited from the semantic stage instead
of the recomputed positions `[1, 2]`. -/
theorem C4_counterexample :
    (hybridRetrieve (7/10) (3/10) egOne vsAB "a" 2).map (fun c => c.rank)
      ≠ (List.range' 1 (hybridRetrieve (7/10) (3/10) egOne vsAB "a" 2).length).map some := by
  rw [hybAB_eval]
  decide

/-- C4 amended: the semantic and keyword stages do assign `rank` as the
1-based output position, but neither the hybrid fusion nor the reranker
recomputes it: the reranker copies each candidate's rank unchanged, and
every hybrid output candidate carries precisely the id and rank of its base
candidate from one of the two sub-retrievals. -/
theorem C4_amended (sw kw : ℚ) (eg : EmbedGen) (vs : VectorStore) (q : String)
    (top_k : Nat) :
    ((semanticRetrieve eg vs q top_k).map (fun c => c.rank)
      = (List.range' 1 (semanticRetrieve eg vs q top_k).length).map some)
    ∧ ((keywordRetrieve vs q top_k).map (fun c => c.rank)
      = (List.range' 1 (keywordRetrieve vs q top_k).length).map some)
    ∧ (∀ r : Cand, (rerankOne q r).rank = r.rank)
    ∧ (hybridRetrieve sw kw eg vs q top_k).Forall (fun c =>
        ∃ d, (d ∈ semanticRetrieve eg vs q (top_k * 2) ∨ d ∈ keywordRetrieve vs q (top_k * 2))
          ∧ c.id = d.id ∧ c.rank = d.rank) := by
  refine ⟨?_, ?_, fun r => rfl, ?_⟩
  · unfold semanticRetrieve
    split
    · rfl
    · rw [formatSemantic_map_rank, formatSemantic_length]
  · unfold keywordRetrieve
    rw [formatKeyword_map_rank, formatKeyword_length]
  · rw [List.forall_iff_forall_mem]
    intro c hc
    have hc' : c ∈ hybridCombined sw kw eg vs q top_k :=
      (List.mem_insertionSort _).mp (List.take_subset _ _ hc)
    unfold hybridCombined at hc'
    rcases List.mem_map.mp hc' with ⟨p, hp, rfl⟩
    obtain ⟨_, hdoc, _, _⟩ := hybrid_entry_char _ _ p hp
    exact ⟨p.2.document, hdoc, rfl, rfl⟩

/-! ### C5 — score bounding -/

def cBad : Cand :=
  { id := "e1", content := "x", metadata := { book_id := none },
    similarity_score := some 1, semantic_score := some 1,
    keyword_score := some 0, combined_score := some 2, rank := some 1 }

theorem hybZero_eval : hybridRetrieve 2 (-1) egOne vsZero "q" 1 = [cBad] := by
  have h1 : (wordFinset "q").card = 1 := by decide
  have h2 : (wordFinset "q" ∩ wordFinset "x").card = 0 := by decide
  norm_num +decide [hybridRetrieve, hybridSorted, hybridCombined, fuseCand,
    semanticRetrieve, keywordRetrieve, egOne, vsZero, List.insertionSort,
    List.orderedInsert, distLe, formatSemantic, formatKeyword, semCand, keyCand, hitZero,
    List.foldl, addSemantic, addKeyword, upsertE, List.any, h1, h2, cBad, fusedGe]

/-- C5 counterexample: with weights `2` and `-1` — which do sum to 1 — and
an index whose distances all lie in `[0, 1]`, a hybrid candidate carries the
fused score `2 ∉ [0, 1]`; the claim needs weight nonnegativity, not just
that the weights sum to 1. -/
theorem C5_counterexample :
    ((2 : ℚ) + (-1) = 1)
    ∧ (∀ (qq : String) (n : Nat), ∀ h ∈ vsZero qq n, 0 ≤ h.distance ∧ h.distance ≤ 1)
    ∧ ∃ c ∈ hybridRetrieve 2 (-1) egOne vsZero "q" 1,
        ∃ s ∈ scoresOf c, ¬ (0 ≤ s ∧ s ≤ 1) := by
  refine ⟨by norm_num, ?_, ?_⟩
  · intro qq n h hm
    simp only [vsZero, List.mem_singleton] at hm
    subst hm
    norm_num [hitZero]
  · rw [hybZero_eval]
    refine ⟨cBad, List.mem_singleton.mpr rfl, 2, ?_, by norm_num⟩
    simp [scoresOf, cBad]

/-- C5 amended: provided the index returns distances in `[0, 1]` and the
fusion weights are nonnegative and sum to 1, every score present on any
candidate produced by any strategy or stage lies in `[0, 1]`. -/
theorem C5_amended (eg : EmbedGen) (vs : VectorStore) (sw kw : ℚ)
    (hD : ∀ (q : String) (n : Nat), ∀ h ∈ vs q n, 0 ≤ h.distance ∧ h.distance ≤ 1)
    (hsw : 0 ≤ sw) (hkw : 0 ≤ kw) (hsum : sw + kw = 1) :
    ∀ (q : String) (top_k : Nat) (book_id : Option String),
      (semanticRetrieve eg vs q top_k).Forall scoresBounded
      ∧ (keywordRetrieve vs q top_k).Forall scoresBounded
      ∧ (hybridRetrieve sw kw eg vs q top_k).Forall scoresBounded
      ∧ (retrieve_with_reranking eg vs q book_id top_k).Forall scoresBounded := by
  intro q top_k book_id
  refine ⟨?_, ?_, ?_, ?_⟩ <;> rw [List.forall_iff_forall_mem]
  · exact semanticRetrieve_bounded eg vs q top_k (hD q top_k)
  · exact keywordRetrieve_bounded vs q top_k
  · exact hybridRetrieve_bounded sw kw eg vs q top_k (hD q (top_k * 2)) hsw hkw hsum
  · exact retrieve_with_reranking_bounded eg vs q book_id top_k (hD q (top_k * 2 * 2))

theorem vsTake_dist_bounded :
    ∀ (q : String) (n : Nat), ∀ h ∈ vsTake q n, 0 ≤ h.distance ∧ h.distance ≤ 1 := by
  intro q n h hm
  have hm' : h ∈ [hitX, hitA] := List.take_subset _ _ hm
  rcases List.mem_cons.mp hm' with h1 | h1
  · subst h1; norm_num [hitX]
  · rw [List.mem_singleton.mp h1]
    norm_num [hitA]

/-- C5 witness at the concrete bounded index with the default weights. -/
theorem C5_witness :
    (∀ (q : String) (n : Nat), ∀ h ∈ vsTake q n, 0 ≤ h.distance ∧ h.distance ≤ 1)
    ∧ ((0:ℚ) ≤ 7/10) ∧ ((0:ℚ) ≤ 3/10) ∧ ((7:ℚ)/10 + 3/10 = 1)
    ∧ ∀ (q : String) (top_k : Nat) (book_id : Option String),
        (semanticRetrieve egOne vsTake q top_k).Forall scoresBounded
        ∧ (keywordRetrieve vsTake q top_k).Forall scoresBounded
        ∧ (hybridRetrieve (7/10) (3/10) egOne vsTake q top_k).Forall scoresBounded
        ∧ (retrieve_with_reranking egOne vsTake q book_id top_k).Forall scoresBounded :=
  ⟨vsTake_dist_bounded, by norm_num, by norm_num, by norm_num,
    C5_amended egOne vsTake (7/10) (3/10) vsTake_dist_bounded
      (by norm_num) (by norm_num) (by norm_num)⟩

/-! ### C9 — fusion weight limits -/

/-- The binding created for a semantic result whose id is new. -/
def semEntry (c : Cand) : String × Entry := (c.id, ⟨c, c.similarity_score.getD 0, 0⟩)

/-- The cumulative effect of the whole keyword loop on one existing
binding. -/
def kwUpdate (K : List Cand) (p : String × Entry) : String × Entry :=
  (p.1, { p.2 with keyword_score := keyScoreOf K p.2.keyword_score p.1 })

/-- When the semantic results have pairwise distinct ids that are all new to
the dict, the semantic loop appends one binding per result, in order. -/
theorem fold_sem_of_nodup : ∀ (S : List Cand) (m : List (String × Entry)),
    (S.map (fun c => c.id)).Nodup →
    (∀ c ∈ S, c.id ∉ keyIds m) →
    S.foldl addSemantic m = m ++ S.map semEntry := by
  intro S
  induction S with
  | nil => intro m _ _; simp
  | cons c S ih =>
    intro m hnd hdisj
    have hnotin : ¬ (m.any (fun p => p.1 == c.id)) = true := by
      intro hany
      rcases List.any_eq_true.mp hany with ⟨p, hp, hpc⟩
      exact hdisj c (List.mem_cons_self c S)
        (beq_iff_eq.mp hpc ▸ List.mem_map_of_mem Prod.fst hp)
    have hstep : addSemantic m c = m ++ [semEntry c] := by
      unfold addSemantic upsertE
      rw [if_neg hnotin]
      rfl
    rw [List.map_cons, List.nodup_cons] at hnd
    obtain ⟨hcS, hndS⟩ := hnd
    rw [List.foldl_cons, hstep, ih (m ++ [semEntry c]) hndS ?_]
    · simp
    · intro c' hc' hmem
      have hmem' : c'.id ∈ keyIds m ++ [c.id] := by
        simpa [keyIds, semEntry] using hmem
      rcases List.mem_append.mp hmem' with h | h
      · exact hdisj c' (List.mem_cons_of_mem c hc') h
      · exact hcS ((List.mem_singleton.mp h) ▸ List.mem_map_of_mem (fun c => c.id) hc')

/-- The keyword loop updates every existing binding's `keyword_score`
in place (preserving order and everything else) and appends only bindings
with fresh ids and semantic score 0. -/
theorem fold_kw_decomp : ∀ (K : List Cand) (m : List (String × Entry)),
    ∃ suffix : List (String × Entry),
      K.foldl addKeyword m = m.map (kwUpdate K) ++ suffix
      ∧ ∀ p ∈ suffix, p.1 ∉ keyIds m ∧ p.2.semantic_score = 0 := by
  intro K
  induction K with
  | nil =>
    intro m
    refine ⟨[], ?_, by simp⟩
    have : m.map (kwUpdate []) = m.map (fun p => p) :=
      List.map_congr_left (fun p _ => rfl)
    rw [this, List.map_id']
    simp
  | cons k K ih =>
    intro m
    by_cases hin : (m.any (fun p => p.1 == k.id)) = true
    · obtain ⟨suffix, hfold, hsuf⟩ := ih (addKeyword m k)
      refine ⟨suffix, ?_, ?_⟩
      · rw [List.foldl_cons, hfold]
        congr 1
        show (upsertE m k.id _ _).map (kwUpdate K) = m.map (kwUpdate (k :: K))
        unfold upsertE
        rw [if_pos hin, List.map_map]
        refine List.map_congr_left ?_
        intro p _
        by_cases hp : p.1 = k.id
        · simp only [Function.comp, hp, beq_self_eq_true, if_true, kwUpdate,
            keyScoreOf_cons, if_pos rfl]
        · have hne : ¬ (p.1 == k.id) = true := by simpa using hp
          have hne' : ¬ (k.id = p.1) := fun hh => hp hh.symm
          simp only [Function.comp, hne, Bool.false_eq_true, if_false, kwUpdate,
            keyScoreOf_cons, if_neg hne']
      · intro p hp
        obtain ⟨h1, h2⟩ := hsuf p hp
        exact ⟨fun hh => h1 (keyIds_subset_upsertE m k.id _ _ hh), h2⟩
    · obtain ⟨suffix, hfold, hsuf⟩ := ih (addKeyword m k)
      have haddk : addKeyword m k = m ++ [(k.id, ⟨k, 0, k.bm25_score.getD 0⟩)] := by
        unfold addKeyword upsertE
        rw [if_neg hin]
      refine ⟨kwUpdate K (k.id, ⟨k, 0, k.bm25_score.getD 0⟩) :: suffix, ?_, ?_⟩
      · rw [List.foldl_cons, hfold, haddk, List.map_append, List.append_assoc]
        congr 1
        · refine List.map_congr_left ?_
          intro p hpm
          have hp : p.1 ≠ k.id := fun hh =>
            hin (List.any_eq_true.mpr ⟨p, hpm, beq_iff_eq.mpr hh⟩)
          have hp' : ¬ (k.id = p.1) := fun hh => hp hh.symm
          simp only [kwUpdate, keyScoreOf_cons, if_neg hp']
      · intro p hp
        rcases List.mem_cons.mp hp with h | h
        · subst h
          refine ⟨?_, rfl⟩
          show k.id ∉ keyIds m
          intro hh
          rcases List.mem_map.mp hh with ⟨p', hp', hpk⟩
          exact hin (List.any_eq_true.mpr ⟨p', hp', beq_iff_eq.mpr hpk⟩)
        · obtain ⟨h1, h2⟩ := hsuf p h
          refine ⟨fun hh => h1 ?_, h2⟩
          rw [haddk]
          simpa [keyIds] using Or.inl (by simpa [keyIds] using hh)

/-- The semantic output is sorted by descending similarity. -/
theorem semanticRetrieve_sorted (eg : EmbedGen) (vs : VectorStore) (q : String)
    (top_k : Nat) :
    (semanticRetrieve eg vs q top_k).Pairwise
      (fun a b => b.similarity_score.getD 0 ≤ a.similarity_score.getD 0) := by
  unfold semanticRetrieve
  split
  · exact List.Pairwise.nil
  · refine formatSemantic_pairwise ?_ (List.sorted_insertionSort distLe _)
    intro a b na nb hab
    simp only [semCand, Option.getD_some]
    unfold distLe at hab
    linarith

/-- C9 amended (the half that holds): with `semantic_weight = 1` and
`keyword_weight = 0` and an index returning pairwise distinct ids, the
hybrid ordering restricted to the semantic sub-retrieval's candidates is
exactly the semantic ordering.  (The keyword-side half of the original
claim is false: see the counterexample — KeywordStrategy does not sort its
own output, while the hybrid stage does sort by the fused = keyword
score.) -/
theorem C9_amended (eg : EmbedGen) (vs : VectorStore) (q : String) (top_k : Nat)
    (hnd : ((vs q (top_k * 2)).map (fun h => h.id)).Nodup) :
    ((hybridSorted 1 0 eg vs q top_k).filter
        (fun c => decide (c.id ∈ (semanticRetrieve eg vs q (top_k * 2)).map (fun d => d.id)))).map
        (fun c => c.id)
      = (semanticRetrieve eg vs q (top_k * 2)).map (fun d => d.id) := by
  by_cases hemb : (eg q).isEmpty
  · have hS : semanticRetrieve eg vs q (top_k * 2) = [] := by
      unfold semanticRetrieve
      rw [if_pos hemb]
    rw [hS]
    simp
  · have hndS : ((semanticRetrieve eg vs q (top_k * 2)).map (fun c => c.id)).Nodup := by
      unfold semanticRetrieve
      rw [if_neg hemb, formatSemantic_map_id]
      exact ((List.perm_insertionSort distLe _).map (fun h => h.id)).nodup_iff.mpr hnd
    have hm1 : (semanticRetrieve eg vs q (top_k * 2)).foldl addSemantic []
        = (semanticRetrieve eg vs q (top_k * 2)).map semEntry := by
      rw [fold_sem_of_nodup (semanticRetrieve eg vs q (top_k * 2)) [] hndS
        (by intro c _ hmem; simp [keyIds] at hmem)]
      rw [List.nil_append]
    obtain ⟨suffix, hm2, hsuf⟩ := fold_kw_decomp (keywordRetrieve vs q (top_k * 2))
      ((semanticRetrieve eg vs q (top_k * 2)).map semEntry)
    have hkeyIds : keyIds ((semanticRetrieve eg vs q (top_k * 2)).map semEntry)
        = (semanticRetrieve eg vs q (top_k * 2)).map (fun c => c.id) := by
      unfold keyIds
      rw [List.map_map]
      rfl
    have hcomb : hybridCombined 1 0 eg vs q top_k
        = (((semanticRetrieve eg vs q (top_k * 2)).map semEntry).map
            (kwUpdate (keywordRetrieve vs q (top_k * 2)))).map (fuseCand 1 0)
          ++ suffix.map (fuseCand 1 0) := by
      simp only [hybridCombined]
      rw [hm1, hm2, List.map_append]
    have hA : ∀ c ∈ (((semanticRetrieve eg vs q (top_k * 2)).map semEntry).map
          (kwUpdate (keywordRetrieve vs q (top_k * 2)))).map (fuseCand 1 0),
        (decide (c.id ∈ (semanticRetrieve eg vs q (top_k * 2)).map (fun d => d.id))) = true := by
      intro c hc
      rcases List.mem_map.mp hc with ⟨p', hp', rfl⟩
      rcases List.mem_map.mp hp' with ⟨p'', hp'', rfl⟩
      rcases List.mem_map.mp hp'' with ⟨d, hd, rfl⟩
      simp only [decide_eq_true_eq]
      show d.id ∈ _
      exact List.mem_map_of_mem (fun d => d.id) hd
    have hB : ∀ c ∈ suffix.map (fuseCand 1 0),
        ¬ (decide (c.id ∈ (semanticRetrieve eg vs q (top_k * 2)).map (fun d => d.id))) = true := by
      intro c hc
      rcases List.mem_map.mp hc with ⟨pe, hpe, rfl⟩
      simp only [decide_eq_true_eq]
      have hpe2 : pe ∈ (keywordRetrieve vs q (top_k * 2)).foldl addKeyword
          ((semanticRetrieve eg vs q (top_k * 2)).foldl addSemantic []) := by
        rw [hm1, hm2]
        exact List.mem_append_right _ hpe
      have hid := (hybrid_entry_char _ _ pe hpe2).1
      intro hmem
      have hmem' : pe.1 ∈ (semanticRetrieve eg vs q (top_k * 2)).map (fun d => d.id) := by
        rw [← hid]
        exact hmem
      exact (hsuf pe hpe).1 (by rw [hkeyIds]; exact hmem')
    have hsortedA : ((((semanticRetrieve eg vs q (top_k * 2)).map semEntry).map
        (kwUpdate (keywordRetrieve vs q (top_k * 2)))).map (fuseCand 1 0)).Pairwise fusedGe := by
      rw [List.map_map, List.map_map]
      refine List.Pairwise.map _ ?_ (semanticRetrieve_sorted eg vs q (top_k * 2))
      intro a b hab
      show fusedGe
        (fuseCand 1 0 (kwUpdate (keywordRetrieve vs q (top_k * 2)) (semEntry a)))
        (fuseCand 1 0 (kwUpdate (keywordRetrieve vs q (top_k * 2)) (semEntry b)))
      unfold fusedGe fuseCand kwUpdate semEntry
      simp only [Option.getD_some]
      ring_nf
      ring_nf at hab
      linarith
    rw [hybridSorted, hcomb, filter_insertionSort, List.filter_append,
      List.filter_eq_self.mpr hA, List.filter_eq_nil_iff.mpr hB, List.append_nil,
      List.Sorted.insertionSort_eq hsortedA, List.map_map, List.map_map, List.map_map]
    exact List.map_congr_left (fun d _ => rfl)

def khX : Cand :=
  { id := "d1", content := "x", metadata := { book_id := none },
    bm25_score := some 0, semantic_score := some 0, keyword_score := some 0,
    combined_score := some 0, rank := some 1 }

def khA : Cand :=
  { id := "d2", content := "a", metadata := { book_id := none },
    bm25_score := some 1, semantic_score := some 0, keyword_score := some 1,
    combined_score := some 1, rank := some 2 }

theorem hybKW_eval : hybridRetrieve 0 1 egNone vsAB "a" 2 = [khA, khX] := by
  have hs : semanticRetrieve egNone vsAB "a" (2 * 2) = [] := rfl
  have h1 : (wordFinset "a").card = 1 := by decide
  have h2 : (wordFinset "a" ∩ wordFinset "x").card = 0 := by decide
  have h3 : (wordFinset "a" ∩ wordFinset "a").card = 1 := by decide
  norm_num +decide [hybridRetrieve, hybridSorted, hybridCombined, fuseCand, hs, kwAB_eval,
    List.foldl, addSemantic, addKeyword, upsertE, List.any, kcX, kcA, khX, khA,
    keyCand, hitX, hitA, h1, h2, h3,
    List.insertionSort, List.orderedInsert, fusedGe]

/-- C9 counterexample: with `semantic_weight = 0` and `keyword_weight = 1`
(and a failed embedding, so the pools coincide), the hybrid output sorts the
candidates by keyword score — `[d2, d1]` — while KeywordStrategy itself
returns them in index order `[d1, d2]`: the two orderings differ over the
same candidate pool. -/
theorem C9_counterexample :
    (((hybridRetrieve 0 1 egNone vsAB "a" 2).map (fun c => c.id)).toFinset
      = ((keywordRetrieve vsAB "a" (2 * 2)).map (fun c => c.id)).toFinset)
    ∧ ((hybridRetrieve 0 1 egNone vsAB "a" 2).map (fun c => c.id)
        ≠ (keywordRetrieve vsAB "a" (2 * 2)).map (fun c => c.id)) := by
  rw [hybKW_eval, kwAB_eval]
  constructor
  · decide
  · decide

/-- C9 witness at the concrete index with distinct ids. -/
theorem C9_witness :
    (((vsTake "a" (1 * 2)).map (fun h => h.id)).Nodup)
    ∧ ((hybridSorted 1 0 egOne vsTake "a" 1).filter
          (fun c => decide (c.id ∈ (semanticRetrieve egOne vsTake "a" (1 * 2)).map (fun d => d.id)))).map
          (fun c => c.id)
        = (semanticRetrieve egOne vsTake "a" (1 * 2)).map (fun d => d.id) :=
  ⟨by decide, C9_amended egOne vsTake "a" 1 (by decide)⟩

end Retriever
